import Mathlib

/-!
Verification of the bndl distributed compute fabric against its specification.

The development shallowly embeds the Python sources:
 - `bndl/rmi/blocks.py` (block manager: `serve_data`, `serve_blocks`, `get_blocks`,
   `_next_download`, `_download`),
 - `bndl/net/node.py` (`Node._peer_connected`, `Node._start_server`,
   `Node._start_tcp_server`),
 - `bndl/execute/job.py` (`Job.execute`, `Stage._execute_eagerly`).

Python `bytes` values are lists of byte values, Python dicts are association
lists in insertion order, machine integers are `Nat` (the Python sources use
unbounded ints; the two float divisions in `serve_data` are exact for all
realistic sizes and are embedded as exact integer division), and fallible code
returns `Option`/`Except`.  Concurrency (future completion order, availability
responses, random choices) is embedded by explicit oracle parameters.
-/

/-- A Python `bytes` payload, as the list of its byte values. -/
abbrev ByteStr := List Nat

/-- Python dict assignment `d[k] = v`: replaces in place, or appends a new key. -/
def dictSet {α β : Type} [DecidableEq α] : List (α × β) → α → β → List (α × β)
  | [], k, v => [(k, v)]
  | (k', v') :: rest, k, v =>
      if k' = k then (k, v) :: rest else (k', v') :: dictSet rest k v

/-- Python dict lookup `d.get(k)`. -/
def dictGet {α β : Type} [DecidableEq α] : List (α × β) → α → Option β
  | [], _ => none
  | (k', v') :: rest, k => if k' = k then some v' else dictGet rest k

/-- Python dict deletion `del d[k]` (keys are unique in a dict, so removing the
first occurrence is exact). -/
def dictDel {α β : Type} [DecidableEq α] : List (α × β) → α → List (α × β)
  | [], _ => []
  | (k', v') :: rest, k => if k' = k then rest else (k', v') :: dictDel rest k

/-! ## Block manager: `serve_data` / `serve_blocks` (bndl/rmi/blocks.py) -/

/-- The slicing loop of `BlockManager.serve_data`: `parts` slices
`data[offset:offset + step]` followed by the remainder `data[offset:]`. -/
def serveDataChunks (data : ByteStr) (step : Nat) : Nat → Nat → List ByteStr
  | 0, offset => [data.drop offset]
  | n + 1, offset => (data.drop offset).take step :: serveDataChunks data step n (offset + step)

/-- The block list produced by `BlockManager.serve_data(name, data, block_size)`:
if `len(data) > block_size` then `parts = int((length - 1) / block_size)` slices of
`step = math.ceil(length / (parts + 1))` bytes plus the remainder, else `[data]`. -/
def serve_data_blocks (data : ByteStr) (block_size : Nat) : List ByteStr :=
  let length := data.length
  if block_size < length then
    let parts := (length - 1) / block_size
    let step := (length + parts) / (parts + 1)
    serveDataChunks data step parts 0
  else
    [data]

/-- `BlockSpec(seeder, name, num_blocks)` from bndl/rmi/blocks.py. -/
structure BlockSpec where
  seeder : String
  name : String
  num_blocks : Nat
  deriving DecidableEq, Repr

/-- The `BlockManager` state: `_blocks_cache` (name to block list, entries may be
`none` during a partial download) and `_available_events` (name to event;
`true` means the event is set). -/
structure BMState where
  blocks_cache : List (String × List (Option ByteStr))
  available_events : List (String × Bool)
  deriving DecidableEq

/-- `BlockManager.serve_blocks(name, blocks)`: install the blocks in the cache,
create and set the availability event, return a `BlockSpec` seeded by this node. -/
def serve_blocks (selfName : String) (st : BMState) (name : String)
    (blocks : List ByteStr) : BlockSpec × BMState :=
  (⟨selfName, name, blocks.length⟩,
   { blocks_cache := dictSet st.blocks_cache name (blocks.map some),
     available_events := dictSet st.available_events name true })

/-- `BlockManager.serve_data(name, data, block_size)`; `none` when the
`assert block_size > 0` fails. -/
def serve_data (selfName : String) (st : BMState) (name : String) (data : ByteStr)
    (block_size : Nat) : Option (BlockSpec × BMState) :=
  if block_size = 0 then none
  else some (serve_blocks selfName st name (serve_data_blocks data block_size))

/-! ### Lemmas about the slicing loop -/

theorem serveDataChunks_length (data : ByteStr) (step : Nat) :
    ∀ n offset, (serveDataChunks data step n offset).length = n + 1 := by
  intro n
  induction n with
  | zero => intro offset; rfl
  | succ m ih => intro offset; simp [serveDataChunks, ih]

theorem serveDataChunks_cons (data : ByteStr) (step n offset : Nat) :
    ∃ c rest, serveDataChunks data step n offset = c :: rest := by
  cases n <;> exact ⟨_, _, rfl⟩

theorem serveDataChunks_flatten (data : ByteStr) (step : Nat) :
    ∀ n offset, (serveDataChunks data step n offset).flatten = data.drop offset := by
  intro n
  induction n with
  | zero => intro offset; simp [serveDataChunks]
  | succ m ih =>
      intro offset
      have hdd : data.drop (offset + step) = (data.drop offset).drop step := by
        rw [List.drop_drop, Nat.add_comm]
      simp only [serveDataChunks, List.flatten_cons, ih, hdd, List.take_append_drop]

theorem serveDataChunks_dropLast_le (data : ByteStr) (step : Nat) :
    ∀ n offset, ∀ b ∈ (serveDataChunks data step n offset).dropLast, b.length ≤ step := by
  intro n
  induction n with
  | zero => intro offset b hb; simp [serveDataChunks] at hb
  | succ m ih =>
      intro offset b hb
      obtain ⟨c, rest, hcr⟩ := serveDataChunks_cons data step m (offset + step)
      rw [serveDataChunks, hcr, List.dropLast_cons₂, List.mem_cons] at hb
      rcases hb with hb | hb
      · subst hb
        simp [List.length_take]
      · exact ih (offset + step) b (by rw [hcr]; exact hb)

theorem serveDataChunks_getLast (data : ByteStr) (step : Nat) :
    ∀ n offset, (serveDataChunks data step n offset).getLast? =
      some (data.drop (offset + n * step)) := by
  intro n
  induction n with
  | zero => intro offset; simp [serveDataChunks]
  | succ m ih =>
      intro offset
      obtain ⟨c, rest, hcr⟩ := serveDataChunks_cons data step m (offset + step)
      rw [serveDataChunks, hcr, List.getLast?_cons_cons, ← hcr, ih]
      ring_nf

/-! ### Arithmetic facts about `parts` and `step` in `serve_data` -/

theorem serve_data_step_le (n bs : Nat) (hbs : 0 < bs) (h : bs < n) :
    (n + (n - 1) / bs) / ((n - 1) / bs + 1) ≤ bs := by
  obtain ⟨m, rfl⟩ : ∃ m, n = m + 1 := ⟨n - 1, by omega⟩
  simp only [Nat.add_sub_cancel]
  have hA : m < m / bs * bs + bs := Nat.lt_div_mul_add hbs
  rw [← Nat.lt_succ_iff, Nat.div_lt_iff_lt_mul (Nat.succ_pos _)]
  nlinarith [hA]

theorem serve_data_parts_mul_step_lt (n bs : Nat) (hbs : 0 < bs) (h : bs < n) :
    (n - 1) / bs * ((n + (n - 1) / bs) / ((n - 1) / bs + 1)) < n := by
  have h1 : (n - 1) / bs * ((n + (n - 1) / bs) / ((n - 1) / bs + 1))
      ≤ (n - 1) / bs * bs :=
    Nat.mul_le_mul_left _ (serve_data_step_le n bs hbs h)
  have h2 : (n - 1) / bs * bs ≤ n - 1 := Nat.div_mul_le_self _ _
  omega

theorem serve_data_le_succ_parts_mul_step (n bs : Nat) (hbs : 0 < bs) (h : bs < n) :
    n ≤ ((n - 1) / bs + 1) * ((n + (n - 1) / bs) / ((n - 1) / bs + 1)) := by
  have hdm := Nat.div_add_mod (n + (n - 1) / bs) ((n - 1) / bs + 1)
  have hmod := Nat.mod_lt (n + (n - 1) / bs) (Nat.succ_pos ((n - 1) / bs))
  linarith [hdm, hmod]

theorem serve_data_last_le (n bs : Nat) (hbs : 0 < bs) (h : bs < n) :
    n - (0 + (n - 1) / bs * ((n + (n - 1) / bs) / ((n - 1) / bs + 1))) ≤ bs := by
  have h1 := serve_data_le_succ_parts_mul_step n bs hbs h
  have h2 := serve_data_step_le n bs hbs h
  have h3 : ((n - 1) / bs + 1) * ((n + (n - 1) / bs) / ((n - 1) / bs + 1))
      = (n - 1) / bs * ((n + (n - 1) / bs) / ((n - 1) / bs + 1))
        + (n + (n - 1) / bs) / ((n - 1) / bs + 1) := by ring
  rw [h3] at h1
  rw [Nat.zero_add]
  refine Nat.le_trans (Nat.sub_le_iff_le_add.mpr ?_) h2
  linarith [h1]

theorem serve_data_parts_succ (n bs : Nat) (hd : 1 ≤ n) (hbs : 0 < bs) :
    (n - 1) / bs + 1 = (n + bs - 1) / bs := by
  have h1 : (n - 1 + bs) / bs = (n - 1) / bs + 1 := Nat.add_div_right _ hbs
  have h2 : n + bs - 1 = n - 1 + bs := by omega
  rw [h2, h1]

/-- C2: for nonempty `data` and positive `block_size`, `serve_data` splits `data`
into `⌈len(data)/block_size⌉` blocks whose in-order concatenation equals `data`;
every block except the last has length at most `block_size`; the last block has
length between 1 and `block_size`; and `block_size = len(data)` yields exactly
one block. -/
theorem serve_data_block_properties (data : ByteStr) (block_size : Nat)
    (hd : 1 ≤ data.length) (hbs : 0 < block_size) :
    ((serve_data_blocks data block_size).length
        = (data.length + block_size - 1) / block_size) ∧
    (serve_data_blocks data block_size).flatten = data ∧
    (∀ b ∈ (serve_data_blocks data block_size).dropLast, b.length ≤ block_size) ∧
    (∀ b ∈ (serve_data_blocks data block_size).getLast?,
        1 ≤ b.length ∧ b.length ≤ block_size) ∧
    (block_size = data.length → (serve_data_blocks data block_size).length = 1) := by
  by_cases h : block_size < data.length
  · have hblocks : serve_data_blocks data block_size =
        serveDataChunks data
          ((data.length + (data.length - 1) / block_size) /
            ((data.length - 1) / block_size + 1))
          ((data.length - 1) / block_size) 0 := by
      simp [serve_data_blocks, if_pos h]
    rw [hblocks]
    refine ⟨?_, ?_, ?_, ?_, ?_⟩
    · rw [serveDataChunks_length]
      exact serve_data_parts_succ data.length block_size hd hbs
    · rw [serveDataChunks_flatten]
      exact List.drop_zero data
    · intro b hb
      exact Nat.le_trans
        (serveDataChunks_dropLast_le data _ _ 0 b hb)
        (serve_data_step_le data.length block_size hbs h)
    · intro b hb
      rw [serveDataChunks_getLast] at hb
      have hb' : b = data.drop (0 + (data.length - 1) / block_size *
          ((data.length + (data.length - 1) / block_size) /
            ((data.length - 1) / block_size + 1))) := by
        simpa using hb.symm
      subst hb'
      rw [List.length_drop]
      constructor
      · have := serve_data_parts_mul_step_lt data.length block_size hbs h
        omega
      · exact serve_data_last_le data.length block_size hbs h
    · intro heq
      omega
  · have hblocks : serve_data_blocks data block_size = [data] := by
      simp [serve_data_blocks, if_neg h]
    rw [hblocks]
    refine ⟨?_, by simp, by simp, ?_, fun _ => rfl⟩
    · have : (data.length + block_size - 1) / block_size = 1 := by
        have hlo : 1 * block_size ≤ data.length + block_size - 1 := by omega
        have hhi : data.length + block_size - 1 < (1 + 1) * block_size := by omega
        exact Nat.div_eq_of_lt_le hlo hhi
      simp [this]
    · intro b hb
      have hb' : b = data := by simpa using hb.symm
      subst hb'
      exact ⟨hd, by omega⟩

/-- Witness for `serve_data_block_properties` at `data = [0,1,2,3,4]`,
`block_size = 2` (blocks `[[0,1],[2,3],[4]]`). -/
theorem serve_data_block_properties_witness :
    (1 ≤ ([0, 1, 2, 3, 4] : ByteStr).length ∧ 0 < 2) ∧
    (((serve_data_blocks [0, 1, 2, 3, 4] 2).length
        = (([0, 1, 2, 3, 4] : ByteStr).length + 2 - 1) / 2) ∧
     (serve_data_blocks [0, 1, 2, 3, 4] 2).flatten = [0, 1, 2, 3, 4] ∧
     (∀ b ∈ (serve_data_blocks [0, 1, 2, 3, 4] 2).dropLast, b.length ≤ 2) ∧
     (∀ b ∈ (serve_data_blocks [0, 1, 2, 3, 4] 2).getLast?,
        1 ≤ b.length ∧ b.length ≤ 2) ∧
     (2 = ([0, 1, 2, 3, 4] : ByteStr).length →
        (serve_data_blocks [0, 1, 2, 3, 4] 2).length = 1)) :=
  ⟨⟨by decide, by decide⟩,
   serve_data_block_properties [0, 1, 2, 3, 4] 2 (by decide) (by decide)⟩

/-- C10: `serve_data(name, b"", block_size)` on empty data does not hit the
assertion for any positive `block_size`: it returns a `BlockSpec` with
`num_blocks = 1`, caches a single empty block under `name`, and creates and
sets the availability event; the single block has length 0.  -/
theorem serve_data_empty (selfName name : String) (st : BMState) (block_size : Nat)
    (hbs : 0 < block_size) :
    serve_data selfName st name [] block_size =
      some (⟨selfName, name, 1⟩,
        { blocks_cache := dictSet st.blocks_cache name [some []],
          available_events := dictSet st.available_events name true }) := by
  simp [serve_data, serve_blocks, serve_data_blocks, Nat.pos_iff_ne_zero.mp hbs]

/-- Witness for `serve_data_empty` at node `"n"`, name `"b"`, an empty block
manager state and `block_size = 3`. -/
theorem serve_data_empty_witness :
    0 < 3 ∧
    serve_data "n" ⟨[], []⟩ "b" [] 3 =
      some (⟨"n", "b", 1⟩,
        { blocks_cache := [("b", [some []])],
          available_events := [("b", true)] }) :=
  ⟨by decide, serve_data_empty "n" "b" ⟨[], []⟩ 3 (by decide)⟩

/-! ## Peer membership: `Node._peer_connected` (bndl/net/node.py) -/

/-- A `PeerNode` as seen by `Node._peer_connected`: its advertised name, the
identity of its underlying connection, whether its connection is up, and the
totally ordered tiebreak key consulted by Python's `known_peer < peer`
comparison (`bndl/net/peer.py` is outside the excerpt, so the comparison is
embedded as `<` on an abstract `Nat` key). -/
structure PeerE where
  name : String
  connId : Nat
  key : Nat
  connected : Bool
  deriving DecidableEq, Repr

/-- Outcome of `Node._peer_connected`: the updated peer table, the connections
disconnected during the call as (connection id, reason) pairs, and the Python
return value (`True` when the new peer was installed, the falsy `None`
otherwise). -/
structure PeerConnectedResult where
  table : List (String × PeerE)
  disconnects : List (Nat × String)
  installed : Bool
  deriving DecidableEq, Repr

/-- `Node._peer_connected(peer)`, the body under the peer-table lock.  A peer
object is truthy in Python, so `if known_peer:` is a `match` on the lookup;
`none` embeds the `assert peer.is_connected` failing. -/
def peer_connected (selfName : String) (table : List (String × PeerE))
    (peer : PeerE) : Option PeerConnectedResult :=
  match dictGet table peer.name with
  | some known_peer =>
      if peer.connected = false then none
      else if selfName = peer.name then
        some { table := table,
               disconnects := [(peer.connId, "self connect")],
               installed := false }
      else if known_peer.connected = true ∧ known_peer.key < peer.key then
        some { table := table,
               disconnects := [(peer.connId, "already connected, old connection wins")],
               installed := false }
      else
        some { table := dictSet (dictDel table peer.name) peer.name peer,
               disconnects := [(known_peer.connId, "already connected, new connection wins")],
               installed := true }
  | none =>
      some { table := dictSet table peer.name peer,
             disconnects := [],
             installed := true }

/-! ### Dictionary lemmas -/

theorem dictGet_dictSet_self {α β : Type} [DecidableEq α] (t : List (α × β)) (n : α) (v : β) :
    dictGet (dictSet t n v) n = some v := by
  induction t with
  | nil => simp [dictSet, dictGet]
  | cons hd rest ih =>
      obtain ⟨k', v'⟩ := hd
      by_cases h : k' = n
      · simp [dictSet, dictGet, h]
      · simp [dictSet, dictGet, h, ih]

theorem dictDel_map_fst {α β : Type} [DecidableEq α] (t : List (α × β)) (n : α) :
    (dictDel t n).map Prod.fst = (t.map Prod.fst).erase n := by
  induction t with
  | nil => simp [dictDel]
  | cons hd rest ih =>
      obtain ⟨k', v'⟩ := hd
      by_cases h : k' = n
      · simp [dictDel, h, List.erase_cons]
      · simp [dictDel, h, List.erase_cons, ih]

theorem dictSet_eq_append {α β : Type} [DecidableEq α] (t : List (α × β)) (n : α) (v : β)
    (h : n ∉ t.map Prod.fst) : dictSet t n v = t ++ [(n, v)] := by
  induction t with
  | nil => rfl
  | cons hd rest ih =>
      obtain ⟨k', v'⟩ := hd
      simp only [List.map_cons, List.mem_cons] at h
      push_neg at h
      simp [dictSet, Ne.symm h.1, ih h.2]

theorem dictGet_mem_keys {α β : Type} [DecidableEq α] (t : List (α × β)) (n : α) (v : β)
    (h : dictGet t n = some v) : n ∈ t.map Prod.fst := by
  induction t with
  | nil => simp [dictGet] at h
  | cons hd rest ih =>
      obtain ⟨k', v'⟩ := hd
      by_cases hk : k' = n
      · simp [hk]
      · simp only [dictGet, if_neg hk] at h
        simp [ih h]

/-- Number of records stored under `n` in a peer table. -/
def countKey (t : List (String × PeerE)) (n : String) : Nat :=
  (t.map Prod.fst).count n

/-- The property claim C4 states for one `_peer_connected` call: when a
connected record for the remote name already exists (and the name is not our
own), the connection with the *lower* tiebreak key is the one disconnected and
the other is the installed winner. -/
def lowerKeyLoses (selfName : String) (table : List (String × PeerE))
    (peer : PeerE) : Prop :=
  match dictGet table peer.name, peer_connected selfName table peer with
  | some known_peer, some r =>
      peer.name ≠ selfName → known_peer.connected = true →
      ((known_peer.key < peer.key →
          r.disconnects.map Prod.fst = [known_peer.connId] ∧
          dictGet r.table peer.name = some peer) ∧
       (peer.key < known_peer.key →
          r.disconnects.map Prod.fst = [peer.connId] ∧
          dictGet r.table peer.name = some known_peer))
  | _, _ => True

/-- C4 counterexample: node `"a"` already holds a connected record for `"b"`
with tiebreak key 5; a new connection for `"b"` arrives with the lower key 3.
The claim says the lower key (the new connection) is disconnected, but
`_peer_connected` disconnects the *old* record (`known_peer < peer` is false,
so the `else` branch wins for the new peer) — the higher key loses. -/
theorem peer_connected_lower_key_wins :
    ¬ lowerKeyLoses "a" [("b", ⟨"b", 1, 5, true⟩)] ⟨"b", 2, 3, true⟩ := by
  intro h
  have h2 := (h (by decide) rfl).2 (by decide)
  exact absurd h2.1 (by decide)

/-- C4 (amended): when a connected peer record for `R ≠ selfName` exists and the
incoming connection for `R` is up, exactly one of the two connections survives:
the connection whose tiebreak key is *higher* is disconnected with an
"already connected" reason (on equal keys the existing record loses), the
survivor — the lower key — is the installed entry under `R`, and afterwards the
table holds exactly one record for `R` and keys stay unique. -/
theorem peer_connected_contest (selfName : String) (table : List (String × PeerE))
    (peer known_peer : PeerE)
    (hlookup : dictGet table peer.name = some known_peer)
    (hne : selfName ≠ peer.name)
    (hkc : known_peer.connected = true)
    (hpc : peer.connected = true)
    (hnodup : (table.map Prod.fst).Nodup) :
    ∃ r, peer_connected selfName table peer = some r ∧
      ((known_peer.key < peer.key →
          r.disconnects = [(peer.connId, "already connected, old connection wins")] ∧
          r.table = table ∧ dictGet r.table peer.name = some known_peer) ∧
       (¬ known_peer.key < peer.key →
          r.disconnects = [(known_peer.connId, "already connected, new connection wins")] ∧
          dictGet r.table peer.name = some peer)) ∧
      r.disconnects.length = 1 ∧
      (∃ s, dictGet r.table peer.name = some s ∧ s.connected = true ∧
        s.key = min known_peer.key peer.key) ∧
      countKey r.table peer.name = 1 ∧ (r.table.map Prod.fst).Nodup := by
  have hmem : peer.name ∈ table.map Prod.fst := dictGet_mem_keys _ _ _ hlookup
  by_cases hkey : known_peer.key < peer.key
  · -- the old (lower-keyed) connection wins; the new connection is disconnected
    refine ⟨{ table := table,
              disconnects := [(peer.connId, "already connected, old connection wins")],
              installed := false }, ?_, ?_, ?_, ?_, ?_, ?_⟩
    · simp [peer_connected, hlookup, hpc, hne, hkc, hkey]
    · exact ⟨fun _ => ⟨rfl, rfl, hlookup⟩, fun hc => absurd hkey hc⟩
    · rfl
    · exact ⟨known_peer, hlookup, hkc, by omega⟩
    · exact List.count_eq_one_of_mem hnodup hmem
    · exact hnodup
  · -- the new (lower-or-equal-keyed) connection wins; the old record is dropped
    have hcount1 : (table.map Prod.fst).count peer.name = 1 :=
      List.count_eq_one_of_mem hnodup hmem
    have hcount0 : ((table.map Prod.fst).erase peer.name).count peer.name = 0 := by
      rw [List.count_erase_self, hcount1]
    have hnotmem : peer.name ∉ (table.map Prod.fst).erase peer.name := by
      intro hmem'
      have := List.count_pos_iff.mpr hmem'
      omega
    have hdel : peer.name ∉ (dictDel table peer.name).map Prod.fst := by
      rw [dictDel_map_fst]; exact hnotmem
    have happend : dictSet (dictDel table peer.name) peer.name peer
        = dictDel table peer.name ++ [(peer.name, peer)] :=
      dictSet_eq_append _ _ _ hdel
    have hget : dictGet (dictSet (dictDel table peer.name) peer.name peer) peer.name
        = some peer := dictGet_dictSet_self _ _ _
    have hkeys : (dictSet (dictDel table peer.name) peer.name peer).map Prod.fst
        = (table.map Prod.fst).erase peer.name ++ [peer.name] := by
      rw [happend, List.map_append, dictDel_map_fst]; rfl
    refine ⟨{ table := dictSet (dictDel table peer.name) peer.name peer,
              disconnects := [(known_peer.connId, "already connected, new connection wins")],
              installed := true }, ?_, ?_, ?_, ?_, ?_, ?_⟩
    · simp [peer_connected, hlookup, hpc, hne, hkc, hkey]
    · exact ⟨fun hc => absurd hc hkey, fun _ => ⟨rfl, hget⟩⟩
    · rfl
    · exact ⟨peer, hget, hpc, by omega⟩
    · show (_ : List String).count peer.name = 1
      rw [hkeys, List.count_append, hcount0]
      simp
    · show ((_ : List (String × PeerE)).map Prod.fst).Nodup
      rw [hkeys]
      refine List.Nodup.append (hnodup.erase _) (List.nodup_singleton _) ?_
      intro x hx hx'
      simp only [List.mem_singleton] at hx'
      subst hx'
      exact hnotmem hx

/-- Witness for `peer_connected_contest`: node `"a"`, existing connected record
`⟨"b", conn 1, key 5⟩`, incoming connection `⟨"b", conn 2, key 3⟩`. -/
theorem peer_connected_contest_witness :
    (dictGet [("b", (⟨"b", 1, 5, true⟩ : PeerE))] "b" = some ⟨"b", 1, 5, true⟩ ∧
     ("a" : String) ≠ "b" ∧
     (⟨"b", 1, 5, true⟩ : PeerE).connected = true ∧
     (⟨"b", 2, 3, true⟩ : PeerE).connected = true ∧
     (([("b", (⟨"b", 1, 5, true⟩ : PeerE))].map Prod.fst).Nodup)) ∧
    (∃ r, peer_connected "a" [("b", ⟨"b", 1, 5, true⟩)] ⟨"b", 2, 3, true⟩ = some r ∧
      ((5 < 3 →
          r.disconnects = [(2, "already connected, old connection wins")] ∧
          r.table = [("b", ⟨"b", 1, 5, true⟩)] ∧
          dictGet r.table "b" = some ⟨"b", 1, 5, true⟩) ∧
       (¬ 5 < 3 →
          r.disconnects = [(1, "already connected, new connection wins")] ∧
          dictGet r.table "b" = some ⟨"b", 2, 3, true⟩)) ∧
      r.disconnects.length = 1 ∧
      (∃ s, dictGet r.table "b" = some s ∧ s.connected = true ∧ s.key = min 5 3) ∧
      countKey r.table "b" = 1 ∧ (r.table.map Prod.fst).Nodup) :=
  ⟨⟨by decide, by decide, rfl, rfl, by decide⟩,
   peer_connected_contest "a" [("b", ⟨"b", 1, 5, true⟩)] ⟨"b", 2, 3, true⟩
     ⟨"b", 1, 5, true⟩ (by decide) (by decide) rfl rfl (by decide)⟩

/-- C5 (the code at the claim's failing input): a node `"n"` with an empty peer
table that accepts a connection identifying itself as `"n"` (a self connect)
installs that connection under the node's own name, disconnects nothing and
returns `True` — the self-connect test of `Node._peer_connected` sits inside
the `if known_peer:` branch, and no record for `"n"` exists yet. -/
theorem peer_connected_self_connect_installed :
    peer_connected "n" [] ⟨"n", 7, 0, true⟩ =
      some { table := [("n", ⟨"n", 7, 0, true⟩)],
             disconnects := [],
             installed := true } := by
  rfl

/-! ## Block manager: `_next_download` (bndl/rmi/blocks.py)

Worker peers are identified by `Nat` ids; the id order stands for however
Python orders the peer objects when `sorted` compares two advertiser lists
element by element. -/

/-- Python's lexicographic `<` on lists, as used by `sorted` when the sort keys
are the advertiser lists. -/
def pyListLt : List Nat → List Nat → Bool
  | [], [] => false
  | [], _ :: _ => true
  | _ :: _, [] => false
  | a :: as, b :: bs => if a < b then true else if b < a then false else pyListLt as bs

/-- Stable insertion for a descending sort by the advertiser list: an element is
placed before the first entry whose key is not greater, so entries with equal
keys keep their original relative order (Python's `sorted` is stable). -/
def insertDesc (x : Nat × List Nat) : List (Nat × List Nat) → List (Nat × List Nat)
  | [] => [x]
  | y :: ys => if pyListLt x.2 y.2 then y :: insertDesc x ys else x :: y :: ys

/-- `sorted(availability.items(), key=itemgetter(1), reverse=True)`: stable sort,
descending by the advertiser *list* (not by its length). -/
def sortDesc : List (Nat × List Nat) → List (Nat × List Nat)
  | [] => []
  | x :: xs => insertDesc x (sortDesc xs)

/-- `availability[idx].append(worker)` on the `defaultdict(list)`. -/
def dictAppend (avail : List (Nat × List Nat)) (idx w : Nat) : List (Nat × List Nat) :=
  match dictGet avail idx with
  | some ws => dictSet avail idx (ws ++ [w])
  | none => avail ++ [(idx, [w])]

/-- Processing one completed availability response in `_next_download`: every
advertised index whose local slot is still empty gets the responding worker
appended; an out-of-range index raises `IndexError`, which the surrounding
`except Exception` catches, abandoning the rest of that response. -/
def addAvailability (blocks : List (Option ByteStr)) (w : Nat) :
    List (Nat × List Nat) → List Nat → List (Nat × List Nat)
  | avail, [] => avail
  | avail, idx :: rest =>
      match blocks.get? idx with
      | none => avail
      | some (some _) => addAvailability blocks w avail rest
      | some none => addAvailability blocks w (dictAppend avail idx w) rest

/-- The `availability` mapping accumulated over the completed responses, in
completion order (`as_completed`); `responses` lists (worker id, advertised
indices) for each response that arrived within `AVAILABILITY_TIMEOUT`. -/
def buildAvailability (blocks : List (Option ByteStr))
    (responses : List (Nat × List Nat)) : List (Nat × List Nat) :=
  responses.foldl (fun avail wr => addAvailability blocks wr.1 avail wr.2) []

/-- `[idx for idx, block in enumerate(blocks) if block is None]`, starting the
enumeration at `i`. -/
def missingIdxs : List (Option ByteStr) → Nat → List Nat
  | [], _ => []
  | none :: rest, i => i :: missingIdxs rest (i + 1)
  | some _ :: rest, i => missingIdxs rest (i + 1)

/-- `BlockManager._next_download(block_spec)`: pick the head of the
availability items sorted descending by advertiser list, or — when no peer
advertises a missing index — a random still-missing index with the seeder's
peer object as sole candidate.  `pick` embeds `random.choice` (the chosen
element is `remaining[pick % len(remaining)]`); `none` embeds the `IndexError`
`random.choice` raises on an empty list. -/
def next_download (blocks : List (Option ByteStr)) (responses : List (Nat × List Nat))
    (seederPeer : Nat) (pick : Nat) : Option (Nat × List Nat) :=
  let availability := buildAvailability blocks responses
  if availability.isEmpty then
    let remaining := missingIdxs blocks 0
    match remaining.get? (pick % remaining.length) with
    | some block_idx => some (block_idx, [seederPeer])
    | none => none
  else
    some ((sortDesc availability).headD (0, []))

/-- C6 (the code at the claim's failing input): two missing blocks; worker 5
advertises index 0, workers 1 and 2 advertise index 1.  The claim requires the
index with the most advertisers (index 1, two advertisers), but
`sorted(..., key=itemgetter(1), reverse=True)` orders by the advertiser *lists*
lexicographically, `[5] > [1, 2]`, so the code returns index 0 with its single
advertiser. -/
theorem next_download_ignores_advertiser_count :
    buildAvailability [none, none] [(5, [0]), (1, [1]), (2, [1])]
      = [(0, [5]), (1, [1, 2])] ∧
    next_download [none, none] [(5, [0]), (1, [1]), (2, [1])] 9 0 = some (0, [5]) ∧
    ([5] : List Nat).length < ([1, 2] : List Nat).length := by
  refine ⟨by decide, ?_, by decide⟩
  decide

/-! ## Block manager: `_download` / `get_blocks` (bndl/rmi/blocks.py) -/

/-- `list.remove(x)`: drop the first occurrence. -/
def pyRemove : List Nat → Nat → List Nat
  | [], _ => []
  | y :: ys, x => if y = x then ys else y :: pyRemove ys x

/-- The `while local or remote:` candidate loop of `_download`: repeatedly pick
a random candidate (`picks` feeds `random.choice`, index `pick % len`),
preferring the local list; remove it; a candidate in `failing` raises inside
`download(source)` and is skipped, otherwise the loop breaks with that source.
`none` is the loop's `else:` (all candidates exhausted or none to begin with),
which falls back to the seeder. -/
def while_candidates (failing : List Nat) :
    Nat → List Nat → List Nat → List Nat → Option Nat
  | 0, _, _, _ => none
  | fuel + 1, picks, localc, remotec =>
      match localc, remotec with
      | [], [] => none
      | _, _ =>
          let cands := if localc.isEmpty then remotec else localc
          let source := cands.getD (picks.headD 0 % cands.length) 0
          if source ∈ failing then
            if localc.isEmpty then
              while_candidates failing fuel picks.tail localc (pyRemove remotec source)
            else
              while_candidates failing fuel picks.tail (pyRemove localc source) remotec
          else some source

/-- The nondeterminism of one `_download` run: per download round `r`, the
availability responses arriving in time, the `random.choice` draws, the
candidates whose `_get_block` call raises, and which peers share an IP with
this node (`split(candidates, lambda c: bool(c.ip_addresses & local_ips))`). -/
structure DownloadOracle where
  responses : Nat → List (Nat × List Nat)
  picks : Nat → Nat
  candPicks : Nat → List Nat
  failing : Nat → List Nat
  isLocal : Nat → Bool

/-- One iteration of `for _ in blocks:` in `_download`: pick the next block
index and candidate set, split candidates into local and remote, try random
candidates and fall back to the seeder.  Every holder of the block set serves
`_get_block(name, idx)` from its copy of the same published blocks, so the
bytes written are `fetch idx` whichever source ends up serving. -/
def download_step (fetch : Nat → ByteStr) (o : DownloadOracle) (seederPeer : Nat)
    (r : Nat) (blocks : List (Option ByteStr)) : Option (Nat × List (Option ByteStr)) :=
  match next_download blocks (o.responses r) seederPeer (o.picks r) with
  | none => none
  | some (idx, candidates) =>
      let localc := candidates.filter (fun c => o.isLocal c)
      let remotec := candidates.filter (fun c => !(o.isLocal c))
      let source :=
        match while_candidates (o.failing r) (localc.length + remotec.length)
            (o.candPicks r) localc remotec with
        | some s => s
        | none => seederPeer
      some (source, blocks.set idx (some (fetch idx)))

/-- The `for _ in blocks:` loop of `_download`, `k` rounds starting at round
index `r`; returns the serving sources and the final block list. -/
def download_loop (fetch : Nat → ByteStr) (o : DownloadOracle) (seederPeer : Nat) :
    Nat → Nat → List (Option ByteStr) → Option (List Nat × List (Option ByteStr))
  | 0, _, blocks => some ([], blocks)
  | k + 1, r, blocks =>
      match download_step fetch o seederPeer r blocks with
      | none => none
      | some (src, blocks') =>
          match download_loop fetch o seederPeer k (r + 1) blocks' with
          | none => none
          | some (srcs, final) => some (src :: srcs, final)

/-- `BlockManager._download(block_spec)`: allocate `num_blocks` empty slots and
fill them one per round; `none` embeds the `assert block_spec.seeder != self.name`
failing. -/
def download (selfName : String) (spec : BlockSpec) (fetch : Nat → ByteStr)
    (o : DownloadOracle) (seederPeer : Nat) :
    Option (List Nat × List (Option ByteStr)) :=
  if spec.seeder = selfName then none
  else download_loop fetch o seederPeer spec.num_blocks 0
    (List.replicate spec.num_blocks none)

/-- `BlockManager.get_blocks(block_spec)` on the path where no availability
event exists yet: this caller registers the (unset) event, becomes the sole
downloader, runs `_download`, sets the event and returns the cache entry.
(The `in_progress` path waits on the event and returns this same entry.) -/
def get_blocks_download (selfName : String) (st : BMState) (spec : BlockSpec)
    (fetch : Nat → ByteStr) (o : DownloadOracle) (seederPeer : Nat) :
    Option (List (Option ByteStr) × BMState) :=
  match download selfName spec fetch o seederPeer with
  | none => none
  | some (_, bs) =>
      some (bs, { blocks_cache := dictSet st.blocks_cache spec.name bs,
                  available_events := dictSet st.available_events spec.name true })

/-! ### Lemmas: every round fills one still-empty slot -/

/-- `countNone bs` counts the empty slots of a partially downloaded entry. -/
def countNone : List (Option ByteStr) → Nat
  | [] => 0
  | none :: rest => countNone rest + 1
  | some _ :: rest => countNone rest

theorem countNone_replicate (n : Nat) : countNone (List.replicate n none) = n := by
  induction n with
  | zero => rfl
  | succ m ih => simp [List.replicate, countNone, ih]

theorem countNone_eq_zero {bs : List (Option ByteStr)} (h : countNone bs = 0) :
    ∀ b ∈ bs, b ≠ none := by
  induction bs with
  | nil => intro b hb; simp at hb
  | cons hd rest ih =>
      intro b hb
      cases hd with
      | none => simp [countNone] at h
      | some v =>
          simp only [countNone] at h
          rcases List.mem_cons.mp hb with hb | hb
          · subst hb; simp
          · exact ih h b hb

theorem countNone_pos {blocks : List (Option ByteStr)} {idx : Nat}
    (h : blocks.get? idx = some none) : 0 < countNone blocks := by
  induction blocks generalizing idx with
  | nil => simp [List.get?] at h
  | cons hd rest ih =>
      cases idx with
      | zero =>
          simp only [List.get?] at h
          obtain rfl : hd = none := by simpa using h
          simp [countNone]
      | succ j =>
          simp only [List.get?] at h
          cases hd with
          | none => simp [countNone]
          | some w => simpa [countNone] using ih h

theorem countNone_set {blocks : List (Option ByteStr)} {idx : Nat} (v : ByteStr)
    (h : blocks.get? idx = some none) :
    countNone (blocks.set idx (some v)) = countNone blocks - 1 := by
  induction blocks generalizing idx with
  | nil => simp [List.get?] at h
  | cons hd rest ih =>
      cases idx with
      | zero =>
          simp only [List.get?] at h
          obtain rfl : hd = none := by simpa using h
          simp [List.set, countNone]
      | succ j =>
          simp only [List.get?] at h
          have hpos := countNone_pos h
          cases hd with
          | none =>
              simp only [List.set, countNone, ih h]
              omega
          | some w =>
              simp only [List.set, countNone, ih h]

theorem missingIdxs_length (blocks : List (Option ByteStr)) :
    ∀ i, (missingIdxs blocks i).length = countNone blocks := by
  induction blocks with
  | nil => intro i; rfl
  | cons hd rest ih =>
      intro i
      cases hd with
      | none => simp [missingIdxs, countNone, ih]
      | some v => simp [missingIdxs, countNone, ih]

theorem missingIdxs_mem (blocks : List (Option ByteStr)) :
    ∀ i x, x ∈ missingIdxs blocks i → i ≤ x ∧ blocks.get? (x - i) = some none := by
  induction blocks with
  | nil => intro i x hx; simp [missingIdxs] at hx
  | cons hd rest ih =>
      intro i x hx
      cases hd with
      | none =>
          rcases List.mem_cons.mp hx with hx | hx
          · subst hx; simp [List.get?]
          · obtain ⟨h1, h2⟩ := ih (i + 1) x hx
            refine ⟨by omega, ?_⟩
            have hxi : x - i = (x - (i + 1)) + 1 := by omega
            rw [hxi]
            simpa [List.get?] using h2
      | some v =>
          obtain ⟨h1, h2⟩ := ih (i + 1) x hx
          refine ⟨by omega, ?_⟩
          have hxi : x - i = (x - (i + 1)) + 1 := by omega
          rw [hxi]
          simpa [List.get?] using h2

theorem dictSet_mem {α β : Type} [DecidableEq α] {t : List (α × β)} {k : α} {v : β}
    {p : α × β} (hp : p ∈ dictSet t k v) : p = (k, v) ∨ p ∈ t := by
  induction t with
  | nil => simpa [dictSet] using hp
  | cons hd rest ih =>
      obtain ⟨k', v'⟩ := hd
      by_cases hk : k' = k
      · simp only [dictSet, if_pos hk] at hp
        rcases List.mem_cons.mp hp with hp | hp
        · exact Or.inl hp
        · exact Or.inr (List.mem_cons_of_mem _ hp)
      · simp only [dictSet, if_neg hk] at hp
        rcases List.mem_cons.mp hp with hp | hp
        · exact Or.inr (by simp [hp])
        · rcases ih hp with hp | hp
          · exact Or.inl hp
          · exact Or.inr (List.mem_cons_of_mem _ hp)

theorem dictAppend_mem {avail : List (Nat × List Nat)} {idx w : Nat}
    {p : Nat × List Nat} (hp : p ∈ dictAppend avail idx w) :
    p.1 = idx ∨ p ∈ avail := by
  unfold dictAppend at hp
  cases hg : dictGet avail idx with
  | some ws =>
      rw [hg] at hp
      rcases dictSet_mem hp with hp | hp
      · exact Or.inl (by simp [hp])
      · exact Or.inr hp
  | none =>
      rw [hg] at hp
      rcases List.mem_append.mp hp with hp | hp
      · exact Or.inr hp
      · simp only [List.mem_singleton] at hp
        exact Or.inl (by simp [hp])

theorem addAvailability_missing (blocks : List (Option ByteStr)) (w : Nat) :
    ∀ idxs avail, (∀ p ∈ avail, blocks.get? p.1 = some none) →
      ∀ p ∈ addAvailability blocks w avail idxs, blocks.get? p.1 = some none := by
  intro idxs
  induction idxs with
  | nil => intro avail hinv p hp; exact hinv p hp
  | cons idx rest ih =>
      intro avail hinv p hp
      simp only [addAvailability] at hp
      cases hg : blocks.get? idx with
      | none => rw [hg] at hp; exact hinv p hp
      | some b =>
          cases b with
          | none =>
              rw [hg] at hp
              refine ih (dictAppend avail idx w) ?_ p hp
              intro q hq
              rcases dictAppend_mem hq with hq | hq
              · rw [hq]; exact hg
              · exact hinv q hq
          | some v => rw [hg] at hp; exact ih avail hinv p hp

theorem foldlAvailability_missing (blocks : List (Option ByteStr)) :
    ∀ (rs : List (Nat × List Nat)) (avail : List (Nat × List Nat)),
      (∀ p ∈ avail, blocks.get? p.1 = some none) →
      ∀ p ∈ rs.foldl (fun av wr => addAvailability blocks wr.1 av wr.2) avail,
        blocks.get? p.1 = some none := by
  intro rs
  induction rs with
  | nil => intro avail hinv p hp; exact hinv p hp
  | cons hd rest ih =>
      intro avail hinv p hp
      exact ih _ (addAvailability_missing blocks hd.1 hd.2 avail hinv) p hp

theorem buildAvailability_missing (blocks : List (Option ByteStr))
    (responses : List (Nat × List Nat)) :
    ∀ p ∈ buildAvailability blocks responses, blocks.get? p.1 = some none := by
  exact foldlAvailability_missing blocks responses [] (by intro p hp; simp at hp)

theorem insertDesc_mem {x y : Nat × List Nat} {l : List (Nat × List Nat)}
    (h : y ∈ insertDesc x l) : y = x ∨ y ∈ l := by
  induction l with
  | nil => simpa [insertDesc] using h
  | cons hd rest ih =>
      simp only [insertDesc] at h
      by_cases hlt : pyListLt x.2 hd.2
      · rw [if_pos hlt] at h
        rcases List.mem_cons.mp h with h | h
        · exact Or.inr (by simp [h])
        · rcases ih h with h | h
          · exact Or.inl h
          · exact Or.inr (List.mem_cons_of_mem _ h)
      · rw [if_neg hlt] at h
        rcases List.mem_cons.mp h with h | h
        · exact Or.inl h
        · exact Or.inr h

theorem sortDesc_mem {y : Nat × List Nat} {l : List (Nat × List Nat)}
    (h : y ∈ sortDesc l) : y ∈ l := by
  induction l with
  | nil => simpa [sortDesc] using h
  | cons hd rest ih =>
      simp only [sortDesc] at h
      rcases insertDesc_mem h with h | h
      · simp [h]
      · exact List.mem_cons_of_mem _ (ih h)

theorem insertDesc_ne_nil (x : Nat × List Nat) (l : List (Nat × List Nat)) :
    insertDesc x l ≠ [] := by
  cases l with
  | nil => simp [insertDesc]
  | cons hd rest =>
      simp only [insertDesc]
      by_cases hlt : pyListLt x.2 hd.2 <;> simp [hlt]

theorem sortDesc_ne_nil {l : List (Nat × List Nat)} (h : l ≠ []) :
    sortDesc l ≠ [] := by
  cases l with
  | nil => exact absurd rfl h
  | cons hd rest => exact insertDesc_ne_nil hd (sortDesc rest)

/-- Whenever a slot is still missing, `_next_download` succeeds and returns the
index of a still-missing slot. -/
theorem next_download_missing (blocks : List (Option ByteStr))
    (responses : List (Nat × List Nat)) (seederPeer pick : Nat)
    (hpos : 0 < countNone blocks) :
    ∃ idx cands, next_download blocks responses seederPeer pick = some (idx, cands) ∧
      blocks.get? idx = some none := by
  unfold next_download
  by_cases hav : (buildAvailability blocks responses).isEmpty
  · simp only [hav, if_true]
    have hlen : (missingIdxs blocks 0).length = countNone blocks :=
      missingIdxs_length blocks 0
    have hmod : pick % (missingIdxs blocks 0).length < (missingIdxs blocks 0).length :=
      Nat.mod_lt _ (by omega)
    cases hg : (missingIdxs blocks 0).get? (pick % (missingIdxs blocks 0).length) with
    | none =>
        have := List.get?_eq_none.mp hg
        omega
    | some idx =>
        refine ⟨idx, [seederPeer], by simp [hg], ?_⟩
        have hmem : idx ∈ missingIdxs blocks 0 := List.get?_mem hg
        have := missingIdxs_mem blocks 0 idx hmem
        simpa using this.2
  · simp only [hav, if_false]
    obtain ⟨y, ys, hsort⟩ : ∃ y ys, sortDesc (buildAvailability blocks responses) = y :: ys := by
      have hne : buildAvailability blocks responses ≠ [] := by
        intro hc; rw [hc] at hav; exact hav (by rfl)
      cases hs : sortDesc (buildAvailability blocks responses) with
      | nil => exact absurd hs (sortDesc_ne_nil hne)
      | cons y ys => exact ⟨y, ys, rfl⟩
    refine ⟨y.1, y.2, by simp [hsort], ?_⟩
    have hy : y ∈ buildAvailability blocks responses :=
      sortDesc_mem (by rw [hsort]; exact List.mem_cons_self _ _)
    exact buildAvailability_missing blocks responses y hy

/-- Each round of `_download` preserves the length of the cache entry and fills
exactly one still-missing slot. -/
theorem download_loop_spec (fetch : Nat → ByteStr) (o : DownloadOracle)
    (seederPeer : Nat) :
    ∀ k r blocks, k ≤ countNone blocks →
      ∃ srcs bs, download_loop fetch o seederPeer k r blocks = some (srcs, bs) ∧
        bs.length = blocks.length ∧ countNone bs = countNone blocks - k := by
  intro k
  induction k with
  | zero =>
      intro r blocks _
      exact ⟨[], blocks, rfl, rfl, by omega⟩
  | succ m ih =>
      intro r blocks hk
      have hpos : 0 < countNone blocks := by omega
      obtain ⟨idx, cands, hnd, hidx⟩ :=
        next_download_missing blocks (o.responses r) seederPeer (o.picks r) hpos
      have hstep : download_step fetch o seederPeer r blocks =
          some (match while_candidates (o.failing r)
                  ((cands.filter (fun c => o.isLocal c)).length +
                   (cands.filter (fun c => !(o.isLocal c))).length)
                  (o.candPicks r) (cands.filter (fun c => o.isLocal c))
                  (cands.filter (fun c => !(o.isLocal c))) with
                | some s => s
                | none => seederPeer,
            blocks.set idx (some (fetch idx))) := by
        simp only [download_step, hnd]
      have hcount : countNone (blocks.set idx (some (fetch idx)))
          = countNone blocks - 1 := countNone_set _ hidx
      obtain ⟨srcs, bs, hloop, hlen, hcnt⟩ :=
        ih (r + 1) (blocks.set idx (some (fetch idx))) (by omega)
      refine ⟨(match while_candidates (o.failing r)
                  ((cands.filter (fun c => o.isLocal c)).length +
                   (cands.filter (fun c => !(o.isLocal c))).length)
                  (o.candPicks r) (cands.filter (fun c => o.isLocal c))
                  (cands.filter (fun c => !(o.isLocal c))) with
                | some s => s
                | none => seederPeer) :: srcs, bs, ?_, ?_, ?_⟩
      · simp only [download_loop, hstep, hloop]
      · rw [hlen, List.length_set]
      · rw [hcnt, hcount]; omega

/-- C7: for a block spec whose seeder is a different node (and holds all its
blocks, so that `_get_block` from the seeder always serves), `get_blocks` on
the downloader path returns a sequence with no empty slots whose length is
`num_blocks`, installs exactly that sequence in the cache with the availability
event set — and after any `r ≤ num_blocks` rounds of the download loop the
cache entry still has length `num_blocks`. -/
theorem get_blocks_download_complete (selfName : String) (st : BMState)
    (spec : BlockSpec) (fetch : Nat → ByteStr) (o : DownloadOracle)
    (seederPeer : Nat) (hseed : spec.seeder ≠ selfName) :
    (∃ bs st', get_blocks_download selfName st spec fetch o seederPeer
        = some (bs, st') ∧
      bs.length = spec.num_blocks ∧ (∀ b ∈ bs, b ≠ none) ∧
      dictGet st'.blocks_cache spec.name = some bs ∧
      dictGet st'.available_events spec.name = some true) ∧
    (∀ r, r ≤ spec.num_blocks → ∃ srcs bs,
      download_loop fetch o seederPeer r 0 (List.replicate spec.num_blocks none)
        = some (srcs, bs) ∧ bs.length = spec.num_blocks) := by
  have hrep : countNone (List.replicate spec.num_blocks none) = spec.num_blocks :=
    countNone_replicate _
  constructor
  · obtain ⟨srcs, bs, hloop, hlen, hcnt⟩ :=
      download_loop_spec fetch o seederPeer spec.num_blocks 0
        (List.replicate spec.num_blocks none) (by omega)
    have hdl : download selfName spec fetch o seederPeer = some (srcs, bs) := by
      simp only [download, if_neg hseed, hloop]
    refine ⟨bs, { blocks_cache := dictSet st.blocks_cache spec.name bs,
                  available_events := dictSet st.available_events spec.name true },
      by simp only [get_blocks_download, hdl], ?_, ?_, ?_, ?_⟩
    · rw [hlen, List.length_replicate]
    · exact countNone_eq_zero (by omega)
    · exact dictGet_dictSet_self _ _ _
    · exact dictGet_dictSet_self _ _ _
  · intro r hr
    obtain ⟨srcs, bs, hloop, hlen, _⟩ :=
      download_loop_spec fetch o seederPeer r 0
        (List.replicate spec.num_blocks none) (by omega)
    exact ⟨srcs, bs, hloop, by rw [hlen, List.length_replicate]⟩

/-- Witness for `get_blocks_download_complete`: seeder `"s"`, downloader `"n"`,
two blocks, no peer responses (every round falls back to the seeder). -/
theorem get_blocks_download_complete_witness :
    (("s" : String) ≠ "n") ∧
    ((∃ bs st', get_blocks_download "n" ⟨[], []⟩ ⟨"s", "x", 2⟩ (fun i => [i])
          ⟨fun _ => [], fun _ => 0, fun _ => [], fun _ => [], fun _ => false⟩ 9
        = some (bs, st') ∧
      bs.length = 2 ∧ (∀ b ∈ bs, b ≠ none) ∧
      dictGet st'.blocks_cache "x" = some bs ∧
      dictGet st'.available_events "x" = some true) ∧
    (∀ r, r ≤ 2 → ∃ srcs bs,
      download_loop (fun i => [i])
          ⟨fun _ => [], fun _ => 0, fun _ => [], fun _ => [], fun _ => false⟩ 9 r 0
          (List.replicate 2 none)
        = some (srcs, bs) ∧ bs.length = 2)) :=
  ⟨by decide,
   get_blocks_download_complete "n" ⟨[], []⟩ ⟨"s", "x", 2⟩ (fun i => [i])
     ⟨fun _ => [], fun _ => 0, fun _ => [], fun _ => [], fun _ => false⟩ 9 (by decide)⟩

/-! ## Node server startup: `_start_server` / `_start_tcp_server` (bndl/net/node.py) -/

/-- The fields of `urlparse(address)` that `_start_server` and
`_start_tcp_server` consult. -/
structure ParsedUrl where
  scheme : String
  hostname : String
  port : Option Nat
  path : String
  deriving DecidableEq, Repr

/-- How starting a server for one address can end.  `noServer` is the silent
`return` of `_start_tcp_server` when no port in the probe range could be bound
(`if not server: return`), leaving the server entry unset; `valueError` is the
`raise ValueError(...)` for an unsupported scheme.  `configurationError` stands
for raising the `ConfigurationError` the spec names: the code never raises it
here. -/
inductive StartServerOutcome where
  | bound (address : String) (port : Nat)
  | unixBound (address : String)
  | noServer
  | valueError (msg : String)
  | configurationError (msg : String)
  deriving DecidableEq, Repr

/-- `Node._start_tcp_server(address, parsed)`: probe ports `port .. port + 999`
(`binds p` tells whether `asyncio.start_server` succeeds on port `p`; any
`OSError` just moves to the next port), record the first bound port, and
rewrite the address when the bound port differs from the parsed one. -/
def start_tcp_server (address : String) (parsed : ParsedUrl)
    (binds : Nat → Bool) : StartServerOutcome :=
  let port0 := parsed.port.getD 5000
  match (List.range 1000).find? (fun i => binds (port0 + i)) with
  | some i =>
      let port := port0 + i
      if parsed.port ≠ some port then
        .bound ("tcp://" ++ parsed.hostname ++ ":" ++ toString port) port
      else
        .bound address port
  | none => .noServer

/-- `Node._start_server(address)`: dispatch on the URL scheme. -/
def start_server (address : String) (parsed : ParsedUrl)
    (binds : Nat → Bool) : StartServerOutcome :=
  if parsed.scheme = "tcp" then start_tcp_server address parsed binds
  else if parsed.scheme = "unix" then .unixBound address
  else .valueError ("unsupported scheme " ++ parsed.scheme ++ " in address " ++ address)

/-- Whether an outcome is the `ConfigurationError` the spec predicts. -/
def isConfigurationError : StartServerOutcome → Bool
  | .configurationError _ => true
  | _ => false

/-- C8 counterexample: an `http` address raises `ValueError`, not
`ConfigurationError`; a TCP bind whose whole 1000-port probe range stays in use
returns silently with no error at all.  Both halves of the claim fail. -/
theorem start_server_no_configuration_error :
    start_server "http://h:1" ⟨"http", "h", some 1, ""⟩ (fun _ => true)
      = .valueError "unsupported scheme http in address http://h:1" ∧
    isConfigurationError
      (start_server "http://h:1" ⟨"http", "h", some 1, ""⟩ (fun _ => true)) = false ∧
    start_server "tcp://h:6000" ⟨"tcp", "h", some 6000, ""⟩ (fun _ => false)
      = .noServer ∧
    isConfigurationError
      (start_server "tcp://h:6000" ⟨"tcp", "h", some 6000, ""⟩ (fun _ => false)) = false := by
  have hfind : (List.range 1000).find? (fun i => false) = none := by
    rw [List.find?_eq_none]
    intro x _
    simp
  refine ⟨by decide, by decide, ?_, ?_⟩ <;>
    simp [start_server, start_tcp_server, hfind, isConfigurationError]

/-- C8 (amended): an address whose scheme is neither `tcp` nor `unix` fails
with a `ValueError` naming the scheme, and a TCP bind that stays
address-in-use over the whole 1000-port probe range returns silently with no
server bound (no error of any kind is raised). -/
theorem start_server_error_behaviour (address : String) (parsed : ParsedUrl)
    (binds : Nat → Bool) :
    (parsed.scheme ≠ "tcp" → parsed.scheme ≠ "unix" →
      start_server address parsed binds =
        .valueError ("unsupported scheme " ++ parsed.scheme ++
          " in address " ++ address)) ∧
    (parsed.scheme = "tcp" → (∀ i < 1000, binds (parsed.port.getD 5000 + i) = false) →
      start_server address parsed binds = .noServer) := by
  constructor
  · intro h1 h2
    simp [start_server, h1, h2]
  · intro h1 h2
    have hfind : (List.range 1000).find?
        (fun i => binds (parsed.port.getD 5000 + i)) = none := by
      rw [List.find?_eq_none]
      intro i hi
      simp [h2 i (List.mem_range.mp hi)]
    simp [start_server, h1, start_tcp_server, hfind]

/-- Witness for `start_server_error_behaviour`: an `http` address and a fully
occupied TCP port range. -/
theorem start_server_error_behaviour_witness :
    (("http" : String) ≠ "tcp" ∧ ("http" : String) ≠ "unix" ∧
     ("tcp" : String) = "tcp") ∧
    (start_server "http://h:1" ⟨"http", "h", some 1, ""⟩ (fun _ => true)
        = .valueError "unsupported scheme http in address http://h:1" ∧
     start_server "tcp://h:6000" ⟨"tcp", "h", some 6000, ""⟩ (fun _ => false)
        = .noServer) :=
  ⟨⟨by decide, by decide, rfl⟩,
   ⟨(start_server_error_behaviour "http://h:1" ⟨"http", "h", some 1, ""⟩
       (fun _ => true)).1 (by decide) (by decide),
    (start_server_error_behaviour "tcp://h:6000" ⟨"tcp", "h", some 6000, ""⟩
       (fun _ => false)).2 rfl (fun i _ => rfl)⟩⟩

/-! ## Job execution: `Job.execute` (bndl/execute/job.py) -/

/-- Modelled from the spec: `bndl.util.lifecycle.Lifecycle` (the module is not
in the excerpt).  A lifecycle object moves New → Running → Stopped/Cancelled;
`signal_start` marks it running, `signal_stop` marks it stopped, and listeners
are notified of the signals (§3: "lifecycle state (new/running/cancelled/stopped)",
§4.3: "Jobs and stages emit start/stop signals"). -/
structure LifecycleState where
  started : Bool
  stopped : Bool
  cancelled : Bool
  deriving DecidableEq, Repr

/-- Modelled from the spec: `Lifecycle.signal_start`. -/
def signalStart (s : LifecycleState) : LifecycleState := { s with started := true }

/-- Modelled from the spec: `Lifecycle.signal_stop`. -/
def signalStop (s : LifecycleState) : LifecycleState := { s with stopped := true }

/-- Modelled from the spec: `Lifecycle.running` — started and not yet stopped
or cancelled. -/
def lifecycleRunning (s : LifecycleState) : Bool :=
  s.started && !s.stopped && !s.cancelled

/-- The stage loop of `Job.execute(workers)` under full consumption: each stage
in order is executed while the job is running (`if not self.running: break`);
a consumed stage generator ends by signalling the stage's stop in its
`finally:`, upon which the `_stage_done` listener stops the job if and only if
the stage is the last one (`stage.stopped and stage == self.stages[-1]`).
Stage execution itself is abstracted to the list of results it yields. -/
def jobExecuteGo : List (List Nat) → LifecycleState → List (List Nat) →
    List (List Nat) × LifecycleState
  | [], st, acc => (acc.reverse, st)
  | s :: rest, st, acc =>
      if lifecycleRunning st then
        let st' := if rest.isEmpty then signalStop st else st
        jobExecuteGo rest st' (s :: acc)
      else (acc.reverse, st)

/-- `Job.execute(workers)`, fully consumed without exceptions: `signal_start`,
then the stage loop; the `finally:` only cancels stages, never the job, and no
`signal_stop` is reached on the normal path other than via `_stage_done`. -/
def jobExecute (stages : List (List Nat)) : List (List Nat) × LifecycleState :=
  jobExecuteGo stages (signalStart ⟨false, false, false⟩) []

/-- C9 counterexample: with zero stages, fully consuming `Job.execute` yields
nothing — but the job does *not* signal stop: `_stage_done` never fires (there
is no last stage) and the normal path of `execute` has no `signal_stop`. -/
theorem job_execute_empty_not_stopped :
    (jobExecute []).1 = [] ∧ ¬ ((jobExecute []).2.stopped = true) := by
  decide

/-- C9 (amended): a job with zero stages yields no results and performs no
worker invocation, and the job signals start but never stop — it ends still in
the running state instead of the stopped state. -/
theorem job_execute_empty_still_running :
    jobExecute [] = ([], { started := true, stopped := false, cancelled := false }) ∧
    lifecycleRunning (jobExecute []).2 = true ∧
    ((jobExecute []).1.flatten : List Nat) = [] := by
  decide

/-- With at least one stage the `_stage_done` listener does stop the job: the
empty-stages case is the one escaping the stop signal. -/
theorem job_execute_nonempty_stops (s : List Nat) (stages : List (List Nat)) :
    ((jobExecute (s :: stages)).2.stopped = true) := by
  suffices h : ∀ (rest : List (List Nat)) (st : LifecycleState) (acc : List (List Nat)),
      lifecycleRunning st = true →
      ((jobExecuteGo rest st acc).2.stopped = true ∨
        (rest = [] ∧ (jobExecuteGo rest st acc).2 = st)) by
    have hrun : lifecycleRunning (signalStart ⟨false, false, false⟩) = true := by decide
    rcases h (s :: stages) (signalStart ⟨false, false, false⟩) [] hrun with h | h
    · exact h
    · exact absurd h.1 (by simp)
  intro rest
  induction rest with
  | nil => intro st acc _; exact Or.inr ⟨rfl, rfl⟩
  | cons hd tl ih =>
      intro st acc hrun
      simp only [jobExecuteGo, hrun, if_true]
      by_cases htl : tl = []
      · subst htl
        simp [jobExecuteGo, signalStop]
      · have hte : tl.isEmpty = false := by simpa [List.isEmpty_iff] using htl
        rw [hte]
        simp only [Bool.false_eq_true, if_false]
        rcases ih st (hd :: acc) hrun with h | h
        · exact Or.inl h
        · exact absurd h.1 htl

/-! ## Eager stage execution: `Stage._execute_eagerly` (bndl/execute/job.py)

Tasks are listed in task-index order; workers are `Nat` ids.  Future
completions happen on worker threads at arbitrary times; the embedding lets an
oracle hand the loop, at the top of each iteration, the set of running tasks
whose futures complete there (their `task_done` callbacks release the
semaphore and free the worker).  A task's future, once completed, yields the
task's result (failure and retry are out of scope for this stage model). -/

/-- A task of the stage: the result its future will carry, and its
`preferred_workers` / `allowed_workers` placement hints (empty list = `None`,
which is falsy). -/
structure TaskE where
  result : Nat
  preferred : List Nat
  allowed : List Nat
  deriving DecidableEq, Repr

/-- The loop state of `Stage._execute_eagerly`.  `toSchedule` and `toYield`
hold task indices in the Python list orientation (`self.tasks[::-1]`, so
`pop()` takes from the end and `insert(0, ..)` pushes the other end);
`running` maps a dispatched, uncompleted task to its worker; `started` are the
tasks whose future is set; `done` the completed ones; `yields` collects the
yielded results, most recent first. -/
structure EagerState where
  toSchedule : List Nat
  toYield : List Nat
  occupied : List Nat
  sem : Nat
  running : List (Nat × Nat)
  started : List Nat
  done : List Nat
  yields : List Nat
  deriving DecidableEq, Repr

/-- The `task_done(worker)` callback of one completing future:
`workers_available.release()` and `occupied.remove(worker)` (a missing worker
is tolerated); the task becomes done.  Completions for tasks that are not
running are ignored. -/
def applyCompletion (st : EagerState) (t : Nat) : EagerState :=
  match dictGet st.running t with
  | none => st
  | some w =>
      { st with sem := st.sem + 1,
                occupied := pyRemove st.occupied w,
                running := dictDel st.running t,
                done := t :: st.done }

/-- All future completions the oracle delivers at the top of one iteration. -/
def applyCompletions (st : EagerState) (ts : List Nat) : EagerState :=
  ts.foldl applyCompletion st

/-- The worker-selection scan: `for worker in chain(preferred_workers or (),
allowed_workers or workers): if worker not in occupied: break; else: worker =
None` — the first non-occupied worker of the chain, else `None`. -/
def selectWorker (task : TaskE) (workers : List Nat) (occupied : List Nat) :
    Option Nat :=
  (task.preferred ++ (if task.allowed.isEmpty then workers else task.allowed)).find?
    (fun w => ¬ w ∈ occupied)

/-- The `if to_schedule:` block of one loop iteration: acquire a semaphore
permit (blocking while `sem = 0`, flagged `true` — the rest of the iteration
is not reached until a completion releases a permit), pop a task, scan for a
free worker; start the task on it, or push the task back to the front. -/
def scheduleStep (tasks : List TaskE) (workers : List Nat) (st : EagerState) :
    EagerState × Bool :=
  if st.toSchedule.isEmpty then (st, false)
  else if st.sem = 0 then (st, true)
  else
    let t := st.toSchedule.getLast?.getD 0
    let st1 := { st with sem := st.sem - 1, toSchedule := st.toSchedule.dropLast }
    match selectWorker (tasks.getD t ⟨0, [], []⟩) workers st1.occupied with
    | some w =>
        ({ st1 with occupied := w :: st1.occupied,
                    started := t :: st1.started,
                    running := (t, w) :: st1.running }, false)
    | none => ({ st1 with toSchedule := t :: st1.toSchedule }, false)

/-- The yield block: when the head of `to_yield` has a future, yield its result
once it has completed — directly (`to_yield[-1].done()`) when dispatching is
still in progress, or after blocking on `result()` otherwise; blocking shows
up here as yielding in the later iteration whose completions cover the head. -/
def yieldStep (tasks : List TaskE) (st : EagerState) : EagerState :=
  match st.toYield.getLast? with
  | none => st
  | some t =>
      if t ∈ st.started ∧ t ∈ st.done then
        { st with toYield := st.toYield.dropLast,
                  yields := (tasks.getD t ⟨0, [], []⟩).result :: st.yields }
      else st

/-- One iteration of the `while to_yield:` loop. -/
def eagerStep (tasks : List TaskE) (workers : List Nat) (completions : List Nat)
    (st : EagerState) : EagerState :=
  let st1 := applyCompletions st completions
  match scheduleStep tasks workers st1 with
  | (st2, true) => st2
  | (st2, false) => yieldStep tasks st2

/-- Run the loop for at most `fuel` iterations, the oracle feeding each
iteration its completions; `some` returns the yielded results in order once
`to_yield` empties, `none` means the run did not terminate in `fuel` steps. -/
def eagerRun (tasks : List TaskE) (workers : List Nat) :
    Nat → List (List Nat) → EagerState → Option (List Nat)
  | 0, _, _ => none
  | fuel + 1, oracle, st =>
      if st.toYield.isEmpty then some st.yields.reverse
      else eagerRun tasks workers fuel oracle.tail
        (eagerStep tasks workers (oracle.headD []) st)

/-- The state set up by `_execute_eagerly` before its loop: `to_schedule =
tasks[::-1]`, `to_yield = to_schedule[:]`, no worker occupied, the semaphore
at the number of workers. -/
def eagerInit (tasks : List TaskE) (workers : List Nat) : EagerState :=
  { toSchedule := (List.range tasks.length).reverse,
    toYield := (List.range tasks.length).reverse,
    occupied := [], sem := workers.length, running := [], started := [],
    done := [], yields := [] }

/-- `Stage._execute_eagerly(workers)`, fully consumed. -/
def execute_eagerly (tasks : List TaskE) (workers : List Nat) (fuel : Nat)
    (oracle : List (List Nat)) : Option (List Nat) :=
  eagerRun tasks workers fuel oracle (eagerInit tasks workers)

/-! ### The loop only ever pops the head of `to_yield` -/

theorem applyCompletion_fields (st : EagerState) (t : Nat) :
    (applyCompletion st t).toYield = st.toYield ∧
    (applyCompletion st t).yields = st.yields := by
  unfold applyCompletion
  cases dictGet st.running t <;> simp

theorem applyCompletions_fields (ts : List Nat) (st : EagerState) :
    (applyCompletions st ts).toYield = st.toYield ∧
    (applyCompletions st ts).yields = st.yields := by
  induction ts generalizing st with
  | nil => exact ⟨rfl, rfl⟩
  | cons hd tl ih =>
      have h1 := applyCompletion_fields st hd
      have h2 := ih (applyCompletion st hd)
      exact ⟨h2.1.trans h1.1, h2.2.trans h1.2⟩

theorem scheduleStep_fields (tasks : List TaskE) (workers : List Nat)
    (st : EagerState) :
    (scheduleStep tasks workers st).1.toYield = st.toYield ∧
    (scheduleStep tasks workers st).1.yields = st.yields := by
  unfold scheduleStep
  by_cases h1 : st.toSchedule.isEmpty
  · simp [h1]
  · by_cases h2 : st.sem = 0
    · simp [h1, h2]
    · simp only [h1, h2, Bool.false_eq_true, if_false]
      cases selectWorker (tasks.getD (st.toSchedule.getLast?.getD 0) ⟨0, [], []⟩)
          workers st.occupied <;> simp

theorem eagerStep_inv (tasks : List TaskE) (workers : List Nat)
    (completions : List Nat) (st : EagerState) (k : Nat) (hk : k ≤ tasks.length)
    (hty : st.toYield = ((List.range tasks.length).drop k).reverse)
    (hys : st.yields =
      ((List.range k).map (fun i => (tasks.getD i ⟨0, [], []⟩).result)).reverse) :
    ∃ kk, kk ≤ tasks.length ∧
      (eagerStep tasks workers completions st).toYield
        = ((List.range tasks.length).drop kk).reverse ∧
      (eagerStep tasks workers completions st).yields
        = ((List.range kk).map (fun i => (tasks.getD i ⟨0, [], []⟩).result)).reverse := by
  obtain ⟨hcy, hcs⟩ := applyCompletions_fields completions st
  obtain ⟨hsy, hss⟩ := scheduleStep_fields tasks workers (applyCompletions st completions)
  obtain ⟨st2, blocked, hsched⟩ :
      ∃ a b, scheduleStep tasks workers (applyCompletions st completions) = (a, b) :=
    ⟨_, _, rfl⟩
  have h2y : st2.toYield = ((List.range tasks.length).drop k).reverse := by
    rw [hsched] at hsy
    rw [hsy, hcy, hty]
  have h2s : st2.yields =
      ((List.range k).map (fun i => (tasks.getD i ⟨0, [], []⟩).result)).reverse := by
    rw [hsched] at hss
    rw [hss, hcs, hys]
  cases blocked with
  | true =>
      simp only [eagerStep, hsched]
      exact ⟨k, hk, h2y, h2s⟩
  | false =>
      simp only [eagerStep, hsched]
      unfold yieldStep
      cases hgl : st2.toYield.getLast? with
      | none => exact ⟨k, hk, h2y, h2s⟩
      | some t =>
          have hget : (List.range tasks.length)[k]? = some t := by
            rw [h2y, List.getLast?_reverse, List.head?_drop] at hgl
            exact hgl
          have hlen : (List.range tasks.length).length = tasks.length :=
            List.length_range _
          have hklt : k < tasks.length := by
            by_contra hc
            rw [List.getElem?_eq_none (by rw [hlen]; omega)] at hget
            exact Option.noConfusion hget
          have htk : t = k := by
            rw [List.getElem?_range hklt] at hget
            exact (Option.some.injEq _ _ ▸ hget).symm
          subst htk
          by_cases hdone : t ∈ st2.started ∧ t ∈ st2.done
          · refine ⟨t + 1, by omega, ?_, ?_⟩
            · simp only [hdone.1, hdone.2, and_self, if_true, h2y,
                List.dropLast_reverse, List.tail_drop]
            · simp only [hdone.1, hdone.2, and_self, if_true, h2s,
                List.range_succ, List.map_append, List.map_cons, List.map_nil,
                List.reverse_append, List.reverse_cons, List.reverse_nil,
                List.nil_append, List.cons_append, List.singleton_append]
          · refine ⟨t, hk, ?_, ?_⟩
            · simp only [if_neg hdone, h2y]
            · simp only [if_neg hdone, h2s]

theorem range_map_getD {α : Type} (l : List α) (d : α) :
    (List.range l.length).map (fun i => l.getD i d) = l := by
  induction l with
  | nil => rfl
  | cons hd tl ih =>
      rw [List.length_cons, List.range_succ_eq_map, List.map_cons, List.map_map]
      simp only [List.getD_cons_zero, Function.comp_def, Nat.succ_eq_add_one,
        List.getD_cons_succ]
      rw [ih]

theorem eagerRun_inv (tasks : List TaskE) (workers : List Nat) :
    ∀ fuel oracle st k, k ≤ tasks.length →
      st.toYield = ((List.range tasks.length).drop k).reverse →
      st.yields =
        ((List.range k).map (fun i => (tasks.getD i ⟨0, [], []⟩).result)).reverse →
      ∀ ys, eagerRun tasks workers fuel oracle st = some ys →
        ys = (List.range tasks.length).map (fun i => (tasks.getD i ⟨0, [], []⟩).result) := by
  intro fuel
  induction fuel with
  | zero =>
      intro oracle st k _ _ _ ys h
      simp [eagerRun] at h
  | succ m ih =>
      intro oracle st k hk hty hys ys h
      rw [eagerRun] at h
      by_cases hemp : st.toYield.isEmpty
      · rw [if_pos hemp] at h
        have hnil : st.toYield = [] := List.isEmpty_iff.mp hemp
        have hkn : k = tasks.length := by
          rw [hty] at hnil
          have := congrArg List.length hnil
          simp only [List.length_reverse, List.length_drop, List.length_range,
            List.length_nil] at this
          omega
        have hy : ys = st.yields.reverse := by
          injection h with h
          exact h.symm
        rw [hy, hys, List.reverse_reverse, hkn]
      · rw [if_neg hemp] at h
        obtain ⟨kk, hkk, h1, h2⟩ :=
          eagerStep_inv tasks workers (oracle.headD []) st k hk hty hys
        exact ih oracle.tail _ kk hkk h1 h2 ys h

/-- C1: whatever order the task futures complete in (any oracle) and however
long the loop takes, when `Stage._execute_eagerly` terminates with a non-empty
worker list its yielded results are exactly the tasks' results in task-index
order. -/
theorem execute_eagerly_in_task_order (tasks : List TaskE) (workers : List Nat)
    (fuel : Nat) (oracle : List (List Nat)) (ys : List Nat)
    (hw : workers ≠ [])
    (hrun : execute_eagerly tasks workers fuel oracle = some ys) :
    ys = tasks.map (fun t => t.result) := by
  have h := eagerRun_inv tasks workers fuel oracle (eagerInit tasks workers) 0
    (Nat.zero_le _) (by simp [eagerInit]) (by simp [eagerInit]) ys hrun
  rw [h]
  rw [show (fun i => (tasks.getD i ⟨0, [], []⟩).result)
      = (fun t : TaskE => t.result) ∘ (fun i => tasks.getD i ⟨0, [], []⟩) from rfl]
  rw [← List.map_map, range_map_getD]

/-- Witness for `execute_eagerly_in_task_order`: two tasks on two workers,
where the oracle completes task 1 *before* task 0; the run still yields
`[5, 7]`, the results in task-index order. -/
theorem execute_eagerly_in_task_order_witness :
    (([0, 1] : List Nat) ≠ [] ∧
     execute_eagerly [⟨5, [], []⟩, ⟨7, [], []⟩] [0, 1] 8
        [[], [], [1], [0], [], [], [], []] = some [5, 7]) ∧
    ([5, 7] : List Nat)
      = ([⟨5, [], []⟩, ⟨7, [], []⟩] : List TaskE).map (fun t => t.result) :=
  ⟨⟨by decide, by decide⟩,
   execute_eagerly_in_task_order [⟨5, [], []⟩, ⟨7, [], []⟩] [0, 1] 8
     [[], [], [1], [0], [], [], [], []] [5, 7] (by decide) (by decide)⟩

/-! ## Task retry (modelled from the spec)

The retry machinery itself is not part of the excerpt: the `Task` of
bndl/execute/job.py keeps no attempt counter, and only
bndl/compute/tests/test_task_failure.py exercises `bndl.compute.attempts`. -/

/-- Modelled from the spec: the eligible worker a given dispatch runs on — the
re-dispatch moves on to another eligible worker, cycling through the eligible
list. -/
def attemptWorker (eligible : List Nat) (a : Nat) : Nat :=
  eligible.getD (a % eligible.length) 0

/-- Modelled from the spec (§4.3 Retry: "A task that fails with a remote
invocation error and whose attempt count is below the configured `attempts`
threshold is re-dispatched to another eligible worker; otherwise the failure is
raised and propagates to the job").  The task fails its first `fails`
dispatches with a remote invocation error and then succeeds with `res`;
dispatch number `a` runs on `attemptWorker eligible a`.  Returns the dispatch
log as (worker, failed?) pairs together with the task's final outcome. -/
def runTaskAttempts (eligible : List Nat) (attempts res : Nat) :
    Nat → Nat → List (Nat × Bool) × Except String Nat
  | fails, a =>
      let w := attemptWorker eligible a
      if h : a < fails then
        if a + 1 < attempts then
          let r := runTaskAttempts eligible attempts res fails (a + 1)
          ((w, true) :: r.1, r.2)
        else ([(w, true)], .error "remote invocation error")
      else ([(w, false)], .ok res)
  termination_by fails a => fails - a

/-- Modelled from the spec: a stage executes its tasks in order, each with the
retry discipline; the first propagated task failure fails the stage, otherwise
the stage yields the task results in order.  A task is (result, number of
initial failing attempts). -/
def runStage (eligible : List Nat) (attempts : Nat) :
    List (Nat × Nat) → Except String (List Nat)
  | [] => .ok []
  | t :: rest =>
      match (runTaskAttempts eligible attempts t.1 t.2 0).2 with
      | .error e => .error e
      | .ok r =>
          match runStage eligible attempts rest with
          | .error e => .error e
          | .ok rs => .ok (r :: rs)

theorem runTaskAttempts_spec (eligible : List Nat) (attempts res : Nat) :
    ∀ d fails a, fails = a + d → fails < attempts →
      runTaskAttempts eligible attempts res fails a =
        (((List.range' a d).map (fun i => (attemptWorker eligible i, true)))
          ++ [(attemptWorker eligible fails, false)], .ok res) := by
  intro d
  induction d with
  | zero =>
      intro fails a hfa _
      rw [runTaskAttempts]
      have : ¬ a < fails := by omega
      simp [this, hfa]
  | succ m ih =>
      intro fails a hfa hlt
      rw [runTaskAttempts]
      have h1 : a < fails := by omega
      have h2 : a + 1 < attempts := by omega
      have hr := ih fails (a + 1) (by omega) hlt
      simp only [h1, dif_pos, h2, if_pos, hr, List.range'_succ a m 1]
      simp

theorem attemptWorker_succ_ne (eligible : List Nat) (a : Nat)
    (h2 : 2 ≤ eligible.length) (hnd : eligible.Nodup) :
    attemptWorker eligible a ≠ attemptWorker eligible (a + 1) := by
  have hn : 0 < eligible.length := by omega
  have hi : a % eligible.length < eligible.length := Nat.mod_lt _ hn
  have hj : (a + 1) % eligible.length < eligible.length := Nat.mod_lt _ hn
  have hne : a % eligible.length ≠ (a + 1) % eligible.length := by
    have := Nat.add_mod a 1 eligible.length
    have h1 : 1 % eligible.length = 1 := Nat.mod_eq_of_lt (by omega)
    by_cases hc : a % eligible.length + 1 < eligible.length
    · rw [this, h1, Nat.mod_eq_of_lt hc]
      omega
    · have hcc : a % eligible.length + 1 = eligible.length := by omega
      rw [this, h1, hcc]
      simp
      omega
  unfold attemptWorker
  rw [show eligible.getD (a % eligible.length) 0 = eligible[a % eligible.length] by
        simp [List.getD_eq_getElem?_getD, List.getElem?_eq_getElem hi],
      show eligible.getD ((a + 1) % eligible.length) 0
          = eligible[(a + 1) % eligible.length] by
        simp [List.getD_eq_getElem?_getD, List.getElem?_eq_getElem hj]]
  intro hc
  exact hne (hnd.getElem_inj_iff.mp hc)

/-- C3 (modelled from the spec): with an attempts threshold of at least 2, a
stage whose every task fails fewer than `attempts` times with a remote
invocation error and then succeeds produces exactly the non-failing reference
output — no failure propagates; each task's dispatch log shows the failing
dispatches re-dispatched, consecutive dispatches landing on distinct eligible
workers. -/
theorem stage_retry_succeeds (eligible : List Nat) (attempts : Nat)
    (tasks : List (Nat × Nat)) (hk : 2 ≤ attempts)
    (hf : ∀ t ∈ tasks, t.2 < attempts)
    (h2 : 2 ≤ eligible.length) (hnd : eligible.Nodup) :
    runStage eligible attempts tasks = .ok (tasks.map (fun t => t.1)) ∧
    runStage eligible attempts (tasks.map (fun t => (t.1, 0)))
      = .ok (tasks.map (fun t => t.1)) ∧
    (∀ t ∈ tasks,
      (runTaskAttempts eligible attempts t.1 t.2 0).1
        = ((List.range' 0 t.2).map (fun i => (attemptWorker eligible i, true)))
            ++ [(attemptWorker eligible t.2, false)]) ∧
    (∀ a, attemptWorker eligible a ≠ attemptWorker eligible (a + 1)) := by
  refine ⟨?_, ?_, ?_, fun a => attemptWorker_succ_ne eligible a h2 hnd⟩
  · induction tasks with
    | nil => rfl
    | cons t rest ih =>
        have ht := runTaskAttempts_spec eligible attempts t.1 t.2 t.2 0 (by omega)
          (hf t (List.mem_cons_self _ _))
        have hrest := ih (fun x hx => hf x (List.mem_cons_of_mem _ hx))
        simp [runStage, ht, hrest]
  · induction tasks with
    | nil => rfl
    | cons t rest ih =>
        have ht := runTaskAttempts_spec eligible attempts t.1 0 0 0 (by omega) (by omega)
        have hrest := ih (fun x hx => hf x (List.mem_cons_of_mem _ hx))
        simp [runStage, ht, hrest]
  · intro t ht
    have := runTaskAttempts_spec eligible attempts t.1 t.2 t.2 0 (by omega) (hf t ht)
    rw [this]

/-- Witness for `stage_retry_succeeds`: `attempts = 2`, eligible workers 0 and
1, a stage of two tasks where the first fails once and then succeeds. -/
theorem stage_retry_succeeds_witness :
    ((2 : Nat) ≤ 2 ∧ (∀ t ∈ ([(5, 1), (7, 0)] : List (Nat × Nat)), t.2 < 2) ∧
     2 ≤ ([0, 1] : List Nat).length ∧ ([0, 1] : List Nat).Nodup) ∧
    (runStage [0, 1] 2 [(5, 1), (7, 0)] = .ok [5, 7] ∧
     runStage [0, 1] 2 (([(5, 1), (7, 0)] : List (Nat × Nat)).map (fun t => (t.1, 0)))
        = .ok [5, 7] ∧
     (∀ t ∈ ([(5, 1), (7, 0)] : List (Nat × Nat)),
        (runTaskAttempts [0, 1] 2 t.1 t.2 0).1
          = ((List.range' 0 t.2).map (fun i => (attemptWorker [0, 1] i, true)))
              ++ [(attemptWorker [0, 1] t.2, false)]) ∧
     (∀ a, attemptWorker [0, 1] a ≠ attemptWorker [0, 1] (a + 1))) :=
  ⟨⟨by decide, by decide, by decide, by decide⟩,
   stage_retry_succeeds [0, 1] 2 [(5, 1), (7, 0)]
     (by decide) (by decide) (by decide) (by decide)⟩
